import Mathlib

/-!
Verification of the png-to-128x64 image conversion pipeline.

Shallow embedding of `src/png-to-128x64.py`: the quantizer (`process_pixel`),
the nibble packer and row-major scan of `convert_image_to_4bit_grayscale`
(lines 28-45), the transparency-dispatch on the image mode (line 14), the
size check and output-path resolution (lines 47-59).  Machine integers are
modelled as `Nat`; the resized 128x64 grayscale image is modelled as a pixel
accessor `Nat → Nat → Nat` (x, then y), since the imaging library's `resize`
guarantees the 128x64 geometry.  Behavior of external library calls
(`Image.alpha_composite`, `os.path.splitext`) is modelled from the spec's
description of them, faithfully to the library semantics.
-/

namespace PngTo128x64

/-- `process_pixel` (line 5-7): convert 8-bit grayscale (0-255) to 4-bit
grayscale (0-15) by truncating integer division. -/
def process_pixel (pixel_value : Nat) : Nat :=
  pixel_value / 16

/-- Line 42: combine two 4-bit values into one byte,
`combined_byte = (first_pixel << 4) | second_pixel`. -/
def combined_byte (first_pixel second_pixel : Nat) : Nat :=
  (first_pixel <<< 4) ||| second_pixel

/-- Lines 28-45: the nested scan.  `for y in range(64)`, inner
`for x in range(0, 128, 2)` (that is, x = 2*i for i = 0..63), appending
`combined_byte` of the two quantized pixels at (x, y) and (x+1, y). -/
def bitmap_data (pix : Nat → Nat → Nat) : List Nat :=
  (List.range 64).flatMap (fun y =>
    (List.range 64).map (fun i =>
      combined_byte (process_pixel (pix (2 * i) y)) (process_pixel (pix (2 * i + 1) y))))

/-- PIL image modes relevant to the script's dispatch: grayscale `L`,
grayscale with alpha `LA`, palette `P`, true color `RGB`, true color with
alpha `RGBA`. -/
inductive Mode
  | L
  | LA
  | P
  | RGB
  | RGBA
deriving DecidableEq, BEq

/-- Line 14: the condition under which the script composites the image over
a white background, `img.mode == 'P' or img.mode == 'RGBA'`. -/
def flatten_condition (m : Mode) : Bool :=
  m == Mode.P || m == Mode.RGBA

/-- Modelled from the spec: a mode that "may carry an alpha channel or a
palette-indexed representation" — palette `P`, color with alpha `RGBA`, and
grayscale with alpha `LA`. -/
def carries_alpha_or_palette (m : Mode) : Bool :=
  match m with
  | Mode.P => true
  | Mode.RGBA => true
  | Mode.LA => true
  | _ => false

/-- Modelled from the spec: the per-channel "over" alpha compositing used by
the library call on line 19, `out = src*alpha + background*(1-alpha)`, with
channels and alpha as bytes in [0,255] and an opaque white (255) background. -/
def alpha_composite_channel (src alpha : Nat) : Nat :=
  (src * alpha + 255 * (255 - alpha)) / 255

/-- Modelled from the spec: the composited alpha channel against the fully
opaque background of line 17, `outA = srcA + bgA*(1 - srcA)` with `bgA = 255`. -/
def alpha_composite_alpha (srcA : Nat) : Nat :=
  srcA + 255 * (255 - srcA) / 255

/-- Modelled from the spec: unpacking a packed byte into its high and low
nibbles, `(high, low)`. -/
def unpack_byte (b : Nat) : Nat × Nat :=
  (b >>> 4, b &&& 15)

/-- Index of the last occurrence of a character, `-1` when absent
(Python `str.rfind`). -/
def rfind : List Char → Char → Int
  | [], _ => -1
  | a :: rest, c =>
    let r := rfind rest c
    if r ≥ 0 then r + 1
    else if a = c then 0
    else -1

/-- Modelled from the spec: `os.path.splitext(p)[0]` as used on line 54 —
strip the extension at the last dot when it lies after the last path
separator and the dot is not part of a run of leading dots of the basename. -/
def splitext_root (p : List Char) : List Char :=
  if rfind p '/' < rfind p '.' then
    if ((p.drop (rfind p '/' + 1).toNat).take
        ((rfind p '.').toNat - (rfind p '/' + 1).toNat)).all
        (fun ch => ch == '.') then p
    else p.take (rfind p '.').toNat
  else p

/-- Lines 52-55: if no output path is provided, derive the default one from
the input path; otherwise use the supplied path verbatim. -/
def resolve_output_path (image_path : List Char) (output_path : Option (List Char)) :
    List Char :=
  match output_path with
  | some p => p
  | none => splitext_root image_path ++ "-4bit.bin".toList

/-- Result of a conversion run: an exception escaped the function uncaught,
the size check printed an error and returned early, or a file was written. -/
inductive Outcome
  | uncaught
  | sizeMismatch
  | wrote (path : List Char) (data : List Nat)
deriving DecidableEq

/-- Lines 47-59: the size guard followed by output-path resolution and the
file write. -/
def finish_convert (bd : List Nat) (image_path : List Char)
    (output_path : Option (List Char)) : Outcome :=
  if bd.length ≠ 128 * 64 / 2 then Outcome.sizeMismatch
  else Outcome.wrote (resolve_output_path image_path output_path) bd

/-- Lines 9-61: the whole function.  `Image.open` (line 11) may fail to
decode; the function body contains no exception handler, so a decode failure
(modelled as `none`) escapes uncaught.  On success the decoded, normalized,
resized image supplies the pixel accessor. -/
def convert_image_to_4bit_grayscale (decoded : Option (Nat → Nat → Nat))
    (image_path : List Char) (output_path : Option (List Char)) : Outcome :=
  match decoded with
  | none => Outcome.uncaught
  | some pix => finish_convert (bitmap_data pix) image_path output_path

/-- The file written by a run, `none` when nothing was written. -/
def written_file : Outcome → Option (List Char × List Nat)
  | Outcome.wrote path data => some (path, data)
  | _ => none

/-! ### Helper lemmas -/

/-- Flattening a nested scan over rectangular ranges into one linear scan. -/
theorem flatMap_range_map {α : Type} (m n : Nat) (f : Nat → Nat → α) :
    (List.range m).flatMap (fun y => (List.range n).map (fun i => f y i)) =
      (List.range (m * n)).map (fun k => f (k / n) (k % n)) := by
  induction m with
  | zero => simp
  | succ m ih =>
    rw [List.range_succ, List.flatMap_append, ih, Nat.succ_mul, List.range_add,
      List.map_append, List.flatMap_singleton, List.map_map]
    congr 1
    apply List.map_congr_left
    intro k hk
    have hkn : k < n := List.mem_range.mp hk
    have hn : 0 < n := Nat.lt_of_le_of_lt (Nat.zero_le k) hkn
    have hdiv : (m * n + k) / n = m := by
      rw [Nat.mul_comm m n, Nat.mul_add_div hn, Nat.div_eq_of_lt hkn]
      omega
    have hmod : (m * n + k) % n = k := by
      rw [Nat.mul_comm m n, Nat.mul_add_mod, Nat.mod_eq_of_lt hkn]
    simp [Function.comp, hdiv, hmod]

/-- The scan of lines 31-45 as a single linear scan over byte indices. -/
theorem bitmap_data_eq_map (pix : Nat → Nat → Nat) :
    bitmap_data pix = (List.range 4096).map (fun k =>
      combined_byte (process_pixel (pix (2 * (k % 64)) (k / 64)))
        (process_pixel (pix (2 * (k % 64) + 1) (k / 64)))) := by
  unfold bitmap_data
  exact flatMap_range_map 64 64 _

/-- A packed pair of nibbles is at most 255. -/
theorem combined_byte_le : ∀ a : Nat, a < 16 → ∀ b : Nat, b < 16 →
    combined_byte a b ≤ 255 := by
  decide

/-- The quantizer output is below 16 on byte inputs. -/
theorem process_pixel_lt (v : Nat) (hv : v ≤ 255) : process_pixel v < 16 := by
  unfold process_pixel
  omega

/-- `rfind` returns -1 exactly when the character is absent. -/
theorem rfind_of_not_mem {p : List Char} {c : Char} (h : c ∉ p) :
    rfind p c = -1 := by
  induction p with
  | nil => rfl
  | cons a rest ih =>
    have hc : c ∉ rest := fun hm => h (List.mem_cons_of_mem a hm)
    have ha : ¬a = c := fun he => h (he ▸ List.mem_cons_self a rest)
    unfold rfind
    rw [ih hc]
    simp [ha]

/-- `rfind` at an occurrence that is last: appending a suffix free of the
character after it leaves its index. -/
theorem rfind_append_last {xs ys : List Char} {c : Char} (h : c ∉ ys) :
    rfind (xs ++ c :: ys) c = (xs.length : Int) := by
  induction xs with
  | nil =>
    show rfind (c :: ys) c = 0
    unfold rfind
    rw [rfind_of_not_mem h]
    simp
  | cons a xs ih =>
    rw [List.cons_append]
    unfold rfind
    rw [ih]
    rw [if_pos (Int.natCast_nonneg xs.length)]
    simp

/-- On a path of the shape `stem ++ "." ++ ext` with no separator anywhere,
no dot in the extension, and at least one non-dot character in the stem,
`splitext_root` returns the stem. -/
theorem splitext_root_stem_ext (stem ext : List Char)
    (hs : '/' ∉ stem) (he : '/' ∉ ext)
    (hd : '.' ∉ ext) (hc : ∃ c ∈ stem, ¬c = '.') :
    splitext_root (stem ++ '.' :: ext) = stem := by
  have hsep : rfind (stem ++ '.' :: ext) '/' = -1 := by
    apply rfind_of_not_mem
    intro hm
    rcases List.mem_append.mp hm with h1 | h1
    · exact hs h1
    · rcases List.mem_cons.mp h1 with h2 | h2
      · exact absurd h2 (by decide)
      · exact he h2
  have hdot : rfind (stem ++ '.' :: ext) '.' = (stem.length : Int) :=
    rfind_append_last hd
  obtain ⟨c, hcmem, hcne⟩ := hc
  unfold splitext_root
  rw [hsep, hdot]
  rw [if_pos (show (-1 : Int) < (stem.length : Int) by omega)]
  have h0 : ((-1 : Int) + 1).toNat = 0 := rfl
  rw [h0, Int.toNat_ofNat, List.drop_zero, Nat.sub_zero, List.take_left]
  have hfalse : stem.all (fun ch => ch == ('.' : Char)) = false := by
    rw [List.all_eq_false]
    exact ⟨c, hcmem, by simp [hcne]⟩
  rw [hfalse]
  simp

/-! ### Claim theorems -/

/-- C1: the output buffer is built row-major (y = 0..63 top-to-bottom, column
pairs x = 0,2,...,126 left-to-right), and the byte at index `y*64 + x/2`
equals `(quantize(pixel(x,y)) << 4) | quantize(pixel(x+1,y))`, left pixel in
the high nibble, right pixel in the low nibble. -/
theorem byte_layout_row_major (pix : Nat → Nat → Nat) (x y : Nat)
    (hy : y < 64) (hx : x < 128) (he : x % 2 = 0) :
    (bitmap_data pix)[y * 64 + x / 2]? =
      some (combined_byte (process_pixel (pix x y)) (process_pixel (pix (x + 1) y))) := by
  rw [bitmap_data_eq_map]
  have hk : y * 64 + x / 2 < 4096 := by omega
  rw [List.getElem?_map, List.getElem?_range hk]
  have h1 : (y * 64 + x / 2) % 64 = x / 2 := by omega
  have h2 : (y * 64 + x / 2) / 64 = y := by omega
  have h3 : 2 * (x / 2) = x := by omega
  simp [h1, h2, h3]

/-- C1 witness: the theorem applied at a concrete pixel grid, x = 2, y = 1. -/
theorem byte_layout_row_major_witness :
    (bitmap_data (fun a b => a + b))[1 * 64 + 2 / 2]? =
      some (combined_byte (process_pixel 3) (process_pixel 4)) :=
  byte_layout_row_major (fun a b => a + b) 2 1 (by decide) (by decide) (by decide)

/-- C2: for every (decoded, normalized, resized) input, the buffer produced
by the scan has length exactly 4096 bytes. -/
theorem bitmap_data_length (pix : Nat → Nat → Nat) :
    (bitmap_data pix).length = 4096 := by
  rw [bitmap_data_eq_map]
  simp

/-- C3: the quantizer equals truncating division by 16 on bytes, is
monotonic on [0,255], maps [0,255] into [0,15], and onto [0,15]. -/
theorem process_pixel_div_mono_onto :
    (∀ v, v ≤ 255 → process_pixel v = v / 16) ∧
    (∀ v1 v2, v1 ≤ v2 → v2 ≤ 255 → process_pixel v1 ≤ process_pixel v2) ∧
    (∀ v, v ≤ 255 → process_pixel v ≤ 15) ∧
    (∀ q, q ≤ 15 → ∃ v, v ≤ 255 ∧ process_pixel v = q) := by
  refine ⟨fun v _ => rfl, fun v1 v2 h _ => Nat.div_le_div_right h, fun v hv => ?_, fun q hq => ?_⟩
  · unfold process_pixel
    omega
  · refine ⟨16 * q, by omega, ?_⟩
    unfold process_pixel
    omega

/-- C3 witness: each conjunct applied at concrete bytes. -/
theorem process_pixel_div_mono_onto_witness :
    process_pixel 100 = 100 / 16 ∧
    process_pixel 3 ≤ process_pixel 250 ∧
    process_pixel 250 ≤ 15 ∧
    (∃ v, v ≤ 255 ∧ process_pixel v = 9) :=
  ⟨process_pixel_div_mono_onto.1 100 (by decide),
   process_pixel_div_mono_onto.2.1 3 250 (by decide) (by decide),
   process_pixel_div_mono_onto.2.2.1 250 (by decide),
   process_pixel_div_mono_onto.2.2.2 9 (by decide)⟩

/-- C4: nibble packing round-trips — for nibbles a, b, unpacking
`(a << 4) | b` yields exactly (a, b), high nibble then low nibble. -/
theorem pack_unpack_roundtrip : ∀ a : Nat, a < 16 → ∀ b : Nat, b < 16 →
    unpack_byte (combined_byte a b) = (a, b) := by
  decide

/-- C4 witness: the round trip at a = 5, b = 9. -/
theorem pack_unpack_roundtrip_witness :
    unpack_byte (combined_byte 5 9) = (5, 9) :=
  pack_unpack_roundtrip 5 (by decide) 9 (by decide)

/-- C5: a fully transparent pixel (alpha = 0), composited over the opaque
white background by the over formula, yields channel intensity 255. -/
theorem transparent_pixel_composites_to_white (src : Nat) :
    alpha_composite_channel src 0 = 255 := by
  unfold alpha_composite_channel
  simp

/-- C6 (code behavior): on a decode failure the function does not produce a
handled error result — the exception escapes `convert_image_to_4bit_grayscale`
uncaught, since lines 9-61 contain no exception handler around `Image.open`. -/
theorem decode_failure_escapes_uncaught :
    convert_image_to_4bit_grayscale none ("bad.png".toList) none = Outcome.uncaught :=
  rfl

/-- C7: whenever the packed-length check fails (buffer length is not
`128*64/2 = 4096`), the run terminates without writing any file. -/
theorem size_mismatch_writes_nothing (bd : List Nat) (image_path : List Char)
    (output_path : Option (List Char)) (h : bd.length ≠ 128 * 64 / 2) :
    written_file (finish_convert bd image_path output_path) = none := by
  unfold finish_convert
  rw [if_pos h]
  rfl

/-- C7 witness: an undersized buffer leads to no file being written. -/
theorem size_mismatch_writes_nothing_witness :
    written_file (finish_convert [] ("photo.png".toList) none) = none :=
  size_mismatch_writes_nothing [] ("photo.png".toList) none (by decide)

/-- C8 counterexample: grayscale-with-alpha (`LA`) carries an alpha channel,
yet the script's dispatch (`img.mode == 'P' or img.mode == 'RGBA'`, line 14)
does not composite it over white. -/
theorem la_mode_not_flattened :
    carries_alpha_or_palette Mode.LA = true ∧ flatten_condition Mode.LA = false := by
  decide

/-- C8 amended: the flattener composites over opaque white exactly the
palette (`P`) and color-with-alpha (`RGBA`) modes — grayscale-with-alpha
(`LA`) is excluded — and for the modes it does handle the composited image is
fully opaque (output alpha 255). -/
theorem flatten_condition_exactly_p_rgba :
    (∀ m, flatten_condition m = true ↔ (m = Mode.P ∨ m = Mode.RGBA)) ∧
    (∀ a, a ≤ 255 → alpha_composite_alpha a = 255) := by
  constructor
  · intro m
    cases m <;> decide
  · intro a ha
    unfold alpha_composite_alpha
    omega

/-- C8 witness: the amended theorem applied at mode `P` and alpha 10. -/
theorem flatten_condition_exactly_p_rgba_witness :
    flatten_condition Mode.P = true ∧ alpha_composite_alpha 10 = 255 :=
  ⟨(flatten_condition_exactly_p_rgba.1 Mode.P).mpr (Or.inl rfl),
   flatten_condition_exactly_p_rgba.2 10 (by decide)⟩

/-- C10: every value appended to the buffer fits in one byte — for byte
intensities v1, v2, the packed value `((v1/16) << 4) | (v2/16)` lies in
[0,255], and hence every element of the buffer built from a byte-valued pixel
grid is at most 255. -/
theorem buffer_bytes_fit :
    (∀ v1 v2, v1 ≤ 255 → v2 ≤ 255 →
      combined_byte (process_pixel v1) (process_pixel v2) ≤ 255) ∧
    (∀ pix : Nat → Nat → Nat, (∀ x y, pix x y ≤ 255) →
      ∀ b ∈ bitmap_data pix, b ≤ 255) := by
  have key : ∀ v1 v2, v1 ≤ 255 → v2 ≤ 255 →
      combined_byte (process_pixel v1) (process_pixel v2) ≤ 255 := by
    intro v1 v2 h1 h2
    exact combined_byte_le _ (process_pixel_lt v1 h1) _ (process_pixel_lt v2 h2)
  refine ⟨key, fun pix hpix b hb => ?_⟩
  rw [bitmap_data_eq_map] at hb
  obtain ⟨k, -, rfl⟩ := List.mem_map.mp hb
  exact key _ _ (hpix _ _) (hpix _ _)

/-- C10 witness: the packed byte at intensities 255 and 0, and the buffer
bound at a constant grid. -/
theorem buffer_bytes_fit_witness :
    combined_byte (process_pixel 255) (process_pixel 0) ≤ 255 ∧ (255 : Nat) ≤ 255 :=
  ⟨buffer_bytes_fit.1 255 0 (by decide) (by decide),
   buffer_bytes_fit.2 (fun _ _ => 255) (fun _ _ => Nat.le_refl 255) 255
     (by rw [bitmap_data_eq_map]
         exact List.mem_map.mpr ⟨0, List.mem_range.mpr (by norm_num), by decide⟩)⟩

/-- C9: an explicit output path is used verbatim; with no explicit output
path, the result is the input path with its extension stripped and
`-4bit.bin` appended (stated for paths of the shape `stem.ext` with a
dot-extension and a stem that is not all dots, the shape `splitext` strips). -/
theorem output_path_resolution :
    (∀ image_path out, resolve_output_path image_path (some out) = out) ∧
    (∀ stem ext : List Char, '/' ∉ stem → '/' ∉ ext → '.' ∉ ext →
      (∃ c ∈ stem, ¬c = '.') →
      resolve_output_path (stem ++ '.' :: ext) none = stem ++ "-4bit.bin".toList) := by
  refine ⟨fun _ _ => rfl, fun stem ext hs he hd hc => ?_⟩
  unfold resolve_output_path
  rw [splitext_root_stem_ext stem ext hs he hd hc]

/-- C9 witness: `photo.png` with no explicit output path resolves to
`photo-4bit.bin`; an explicit `custom.bin` is used verbatim. -/
theorem output_path_resolution_witness :
    resolve_output_path ("photo.png".toList) none = "photo-4bit.bin".toList ∧
    resolve_output_path ("photo.png".toList) (some ("custom.bin".toList)) =
      "custom.bin".toList := by
  constructor
  · have h := output_path_resolution.2 ("photo".toList) ("png".toList)
      (by decide) (by decide) (by decide) ⟨Char.ofNat 112, by decide, by decide⟩
    have e1 : ("photo".toList ++ '.' :: "png".toList) = "photo.png".toList := by decide
    have e2 : ("photo".toList ++ "-4bit.bin".toList) = "photo-4bit.bin".toList := by decide
    rw [e1, e2] at h
    exact h
  · exact output_path_resolution.1 ("photo.png".toList) ("custom.bin".toList)

end PngTo128x64
